import Mathlib

/-!
Shallow embedding of the code-injection core of the headcrab debugger
(`headcrab_inject/src/module.rs`, `src/target/linux/mod.rs`,
`src/target/linux/readmem.rs`), together with proofs about the
relocation engine, the finalize machinery, the breakpoint manager and
the batched memory reader.

Machine integers are modelled as `Nat`/`Int` with explicit `% 2 ^ w`
where the Rust code truncates or wraps.  Byte buffers are `List Nat`
whose elements are kept below 256 by construction.  Fallible Rust code
is modelled with explicit outcome types distinguishing a returned
`Err` (recoverable), a `panic!` (abort) and undefined behaviour of a
raw out-of-bounds pointer write.
-/

namespace Headcrab

/-! ## Little-endian byte buffer primitives

`writeLE bytes off w v` models the unaligned little-endian store of the
low `w` bytes of `v` at byte offset `off` performed by
`ptr::write_unaligned` in `perform_relocations`; `readLE` is the
corresponding observation. -/

/-- Store the low `w` bytes of `v` little-endian at offset `off`. -/
def writeLE : List Nat → Nat → Nat → Nat → List Nat
  | bytes, _, 0, _ => bytes
  | bytes, off, w + 1, v => writeLE (bytes.set off (v % 256)) (off + 1) w (v / 256)

/-- Read `w` bytes little-endian starting at offset `off`. -/
def readLE : List Nat → Nat → Nat → Nat
  | _, _, 0 => 0
  | bytes, off, w + 1 => bytes.getD off 0 + 256 * readLE bytes (off + 1) w

/-- The raw pointer write in `perform_relocations` has no bounds check
(only a debug-build assertion); an out-of-bounds store is undefined
behaviour, modelled here as `none`. -/
def writeLEChecked (bytes : List Nat) (off w v : Nat) : Option (List Nat) :=
  if off + w ≤ bytes.length then some (writeLE bytes off w v) else none

/-- `x as u64` applied to a signed 64-bit quantity. -/
def u64of (i : Int) : Nat := (i % (2 ^ 64)).toNat

/-- `x as u32` / `x as i32` bit pattern of a signed quantity. -/
def u32of (i : Int) : Nat := (i % (2 ^ 32)).toNat

/-! ## Data model of `InjectionModule` (headcrab_inject/src/module.rs)

`FuncId`/`DataId` are dense non-negative integers, modelled as `Nat`.
`SecondaryMap<Id, Option<CompiledBytes>>` defaults to `None`, modelled
as `Nat → Option CompiledBytes`.  The `cranelift` relocation kinds used
by the module are embedded as an enumeration; every other kind hits
the `unimplemented!()` arm and is represented by `other`. -/

inductive Reloc where
  | abs4
  | abs8
  | x86PCRel4
  | x86CallPCRel4
  | x86GOTPCRel4
  | x86CallPLTRel4
  | other
deriving DecidableEq

/-- `ir::ExternalName`: either a user symbol (an opaque index into the
declaration table) or a libcall tag. -/
inductive ExternalName where
  | user (index : Nat)
  | libCall (tag : Nat)
deriving DecidableEq

/-- `RelocEntry { offset, reloc, name, addend }`. -/
structure RelocEntry where
  offset : Nat
  reloc : Reloc
  name : ExternalName
  addend : Int
deriving DecidableEq

/-- `CompiledBytes { bytes, relocs, region, finalized }`. -/
structure CompiledBytes where
  bytes : List Nat
  relocs : List RelocEntry
  region : Nat
  finalized : Bool
deriving DecidableEq

/-- Per-function declaration data used by the module (name for the
symbol-lookup fallback, `linkage.is_definable()`). -/
structure FuncDecl where
  name : String
  definable : Bool
deriving DecidableEq

/-- Per-data declaration data used by the module. -/
structure DataDecl where
  name : String
  writable : Bool
  tls : Bool
  definable : Bool
deriving DecidableEq

/-- The queries of `cranelift_module::ModuleDeclarations` that
`InjectionModule` uses, embedded as an abstract query interface. -/
structure ModuleDeclarations where
  is_function : Nat → Bool
  get_function_id : Nat → Nat
  get_data_id : Nat → Nat
  get_function_decl : Nat → FuncDecl
  get_data_decl : Nat → DataDecl

/-- `target_lexicon::PointerWidth`. -/
inductive PointerWidth where
  | u16
  | u32
  | u64
deriving DecidableEq

/-- The linker state of `InjectionModule` (module.rs lines 22-35).
`lookup_symbol` and `libcall_names` are the externally supplied
callbacks; `pointer_width` stands for `isa.triple().pointer_width()`. -/
structure InjectionModule where
  declarations : ModuleDeclarations
  functions : Nat → Option CompiledBytes
  data_objects : Nat → Option CompiledBytes
  functions_to_finalize : List Nat
  data_objects_to_finalize : List Nat
  lookup_symbol : String → Nat
  libcall_names : Nat → String
  pointer_width : PointerWidth

/-- `get_definition` (module.rs lines 91-118): resolve a symbolic
reference to an absolute address in the debuggee. -/
def get_definition (m : InjectionModule) : ExternalName → Nat
  | .user u =>
    if m.declarations.is_function u then
      let func_id := m.declarations.get_function_id u
      match m.functions func_id with
      | some compiled => compiled.region
      | none => m.lookup_symbol (m.declarations.get_function_decl func_id).name
    else
      let data_id := m.declarations.get_data_id u
      match m.data_objects data_id with
      | some compiled => compiled.region
      | none => m.lookup_symbol (m.declarations.get_data_decl data_id).name
  | .libCall libcall => m.lookup_symbol (m.libcall_names libcall)

/-- Result of patching a local buffer: a successful patch, a `panic!`
(with its message), or undefined behaviour from the unchecked
out-of-bounds raw-pointer write. -/
inductive RelocResult where
  | ok (bytes : List Nat)
  | panic (msg : String)
  | ub
deriving DecidableEq

/-- Successful patch result, with a default for the other outcomes. -/
def RelocResult.okBytes (d : List Nat) : RelocResult → List Nat
  | .ok bytes => bytes
  | _ => d

/-- One iteration of the loop in `perform_relocations` (module.rs lines
123-162): resolve the target, compute `what = (base as i64 + addend) as
u64`, and patch at `offset`.  `pos` is the object's remote region. -/
def applyReloc (m : InjectionModule) (pos : Nat) (bytes : List Nat) (r : RelocEntry) : RelocResult :=
  let base := get_definition m r.name
  let what := u64of ((base : Int) + r.addend)
  match r.reloc with
  | .abs4 =>
    match writeLEChecked bytes r.offset 4 what with
    | some b => .ok b
    | none => .ub
  | .abs8 =>
    match writeLEChecked bytes r.offset 8 what with
    | some b => .ok b
    | none => .ub
  | .x86PCRel4 | .x86CallPCRel4 =>
    let pcrel := u32of ((what : Int) - ((pos : Int) + (r.offset : Int)))
    match writeLEChecked bytes r.offset 4 pcrel with
    | some b => .ok b
    | none => .ub
  | .x86GOTPCRel4 | .x86CallPLTRel4 => .panic "unexpected PIC relocation"
  | .other => .panic "unimplemented relocation kind"

/-- `perform_relocations` (module.rs lines 120-164). -/
def perform_relocations (m : InjectionModule) (pos : Nat) : List Nat → List RelocEntry → RelocResult
  | bytes, [] => .ok bytes
  | bytes, r :: rs =>
    match applyReloc m pos bytes r with
    | .ok b => perform_relocations m pos b rs
    | .panic msg => .panic msg
    | .ub => .ub

/-- Number of bytes a relocation kind patches (4 or 8; `other` never
reaches the write). -/
def relocWidth : Reloc → Nat
  | .abs4 => 4
  | .abs8 => 8
  | .x86PCRel4 => 4
  | .x86CallPCRel4 => 4
  | .x86GOTPCRel4 => 4
  | .x86CallPLTRel4 => 4
  | .other => 0

/-! ## Finalization (module.rs lines 166-220)

Writes to the debuggee go through `target.write().write_slice(..).apply()`,
which can fail with an OS error; that external write is modelled by the
oracle `wOk : region → bytes → Bool`.  A module operation either
returns `Ok` (`ok`), returns `Err` while keeping the mutations done so
far (`err`), panics, or runs into undefined behaviour. -/

inductive FinOutcome where
  | ok (m : InjectionModule)
  | err (m : InjectionModule)
  | panic (msg : String)
  | ub

/-- State reached in `finalize_function` after `func.finalized = true`
and `std::mem::take(&mut func.bytes)`. -/
def setFuncFinalized (m : InjectionModule) (func_id : Nat) (func : CompiledBytes) : InjectionModule :=
  { m with functions := fun i =>
      if i = func_id then some { func with finalized := true, bytes := [] } else m.functions i }

/-- Data-object analogue of `setFuncFinalized` (in `finalize_data`). -/
def setDataFinalized (m : InjectionModule) (data_id : Nat) (data : CompiledBytes) : InjectionModule :=
  { m with data_objects := fun i =>
      if i = data_id then some { data with finalized := true, bytes := [] } else m.data_objects i }

/-- `finalize_function` (module.rs lines 166-186).  Note the source
marks the object finalized and takes its bytes BEFORE patching and
before the fallible write to the debuggee. -/
def finalize_function (wOk : Nat → List Nat → Bool) (m : InjectionModule) (func_id : Nat) : FinOutcome :=
  match m.functions func_id with
  | none => .panic "function must be compiled before it can be finalized"
  | some func =>
    if func.finalized then .panic "function cannot be finalized twice"
    else
      match perform_relocations (setFuncFinalized m func_id func) func.region func.bytes func.relocs with
      | .ok code =>
        if wOk func.region code then .ok (setFuncFinalized m func_id func)
        else .err (setFuncFinalized m func_id func)
      | .panic msg => .panic msg
      | .ub => .ub

/-- `finalize_data` (module.rs lines 188-208). -/
def finalize_data (wOk : Nat → List Nat → Bool) (m : InjectionModule) (data_id : Nat) : FinOutcome :=
  match m.data_objects data_id with
  | none => .panic "data object must be compiled before it can be finalized"
  | some data =>
    if data.finalized then .panic "data object cannot be finalized twice"
    else
      match perform_relocations (setDataFinalized m data_id data) data.region data.bytes data.relocs with
      | .ok bytes =>
        if wOk data.region bytes then .ok (setDataFinalized m data_id data)
        else .err (setDataFinalized m data_id data)
      | .panic msg => .panic msg
      | .ub => .ub

/-- Reference to a processed object, used as a ghost trace element. -/
inductive ObjRef where
  | func (id : Nat)
  | data (id : Nat)
deriving DecidableEq

/-- The first `for` loop of `finalize_all`, over the taken function
pending list; `tr` accumulates which objects were processed in order
(the failing object included). -/
def finalize_funcs (wOk : Nat → List Nat → Bool) :
    InjectionModule → List Nat → List ObjRef → List ObjRef × FinOutcome
  | m, [], tr => (tr, .ok m)
  | m, func_id :: rest, tr =>
    match finalize_function wOk m func_id with
    | .ok m1 => finalize_funcs wOk m1 rest (tr ++ [.func func_id])
    | .err m1 => (tr ++ [.func func_id], .err m1)
    | .panic msg => (tr ++ [.func func_id], .panic msg)
    | .ub => (tr ++ [.func func_id], .ub)

/-- The second `for` loop of `finalize_all`, over the taken data
pending list. -/
def finalize_datas (wOk : Nat → List Nat → Bool) :
    InjectionModule → List Nat → List ObjRef → List ObjRef × FinOutcome
  | m, [], tr => (tr, .ok m)
  | m, data_id :: rest, tr =>
    match finalize_data wOk m data_id with
    | .ok m1 => finalize_datas wOk m1 rest (tr ++ [.data data_id])
    | .err m1 => (tr ++ [.data data_id], .err m1)
    | .panic msg => (tr ++ [.data data_id], .panic msg)
    | .ub => (tr ++ [.data data_id], .ub)

/-- `finalize_all` (module.rs lines 210-220): `std::mem::take` empties
each pending list at the start of its pass; the data pass only runs if
the function pass completed.  Also returns the ghost trace of processed
objects. -/
def finalize_all (wOk : Nat → List Nat → Bool) (m : InjectionModule) : List ObjRef × FinOutcome :=
  match finalize_funcs wOk { m with functions_to_finalize := [] } m.functions_to_finalize [] with
  | (tr, .ok m1) =>
    finalize_datas wOk { m1 with data_objects_to_finalize := [] } m1.data_objects_to_finalize tr
  | (tr, out) => (tr, out)

/-- The module state carried by an `ok` or `err` outcome. -/
def FinOutcome.getMod (d : InjectionModule) : FinOutcome → InjectionModule
  | .ok m => m
  | .err m => m
  | _ => d

def FinOutcome.isErr : FinOutcome → Bool
  | .err _ => true
  | _ => false

def FinOutcome.isOk : FinOutcome → Bool
  | .ok _ => true
  | _ => false

/-- `lookup_function` (module.rs lines 79-83): `unwrap` of a missing
definition and the `assert!(func.finalized)` are panics (`none`). -/
def lookup_function (m : InjectionModule) (func_id : Nat) : Option Nat :=
  match m.functions func_id with
  | none => none
  | some func => if func.finalized then some func.region else none

/-- `lookup_data_object` (module.rs lines 85-89). -/
def lookup_data_object (m : InjectionModule) (data_id : Nat) : Option Nat :=
  match m.data_objects data_id with
  | none => none
  | some data => if data.finalized then some data.region else none

/-! ## `define_data` (module.rs lines 336-414) -/

/-- `cranelift_module::Init`. -/
inductive Init where
  | uninitialized
  | zeros (size : Nat)
  | bytes (contents : List Nat)
deriving DecidableEq

/-- `Init::size()`.  (For `Uninitialized` the upstream crate itself
panics; returning 0 here lets control reach the module's own
`panic!("data is not initialized yet")` arm — either way `define_data`
on an uninitialized descriptor aborts.) -/
def Init.size : Init → Nat
  | .uninitialized => 0
  | .zeros size => size
  | .bytes contents => contents.length

/-- The fields of `cranelift_module::DataDescription` that `define_data`
reads.  `function_decls`/`data_decls` map declaration indices to
external names; relocation lists pair an offset with such an index
(data relocations additionally carry an addend). -/
structure DataDescription where
  init : Init
  function_decls : List ExternalName
  data_decls : List ExternalName
  function_relocs : List (Nat × Nat)
  data_relocs : List (Nat × Nat × Int)
  align : Option Nat

/-- The `cranelift_module::ModuleError` variants `define_data` returns. -/
inductive ModuleErr where
  | invalidImportDefinition (name : String)
  | duplicateDefinition (name : String)
deriving DecidableEq

/-- Outcome of a `define_*` call: returned `Ok`, returned recoverable
`ModuleError`, or aborted with a panic. -/
inductive DefOutcome where
  | ok (m : InjectionModule)
  | err (e : ModuleErr)
  | panic (msg : String)

def DefOutcome.getMod (d : InjectionModule) : DefOutcome → InjectionModule
  | .ok m => m
  | _ => d

def DefOutcome.isErr : DefOutcome → Bool
  | .err _ => true
  | _ => false

def DefOutcome.isPanic : DefOutcome → Bool
  | .panic _ => true
  | _ => false

/-- The pointer-width match in `define_data` (module.rs lines 383-387):
`U16 => panic!()`, `U32 => Abs4`, `U64 => Abs8`. -/
def pointerReloc : PointerWidth → Option Reloc
  | .u16 => none
  | .u32 => some .abs4
  | .u64 => some .abs8

/-- Tail of `define_data` after the init descriptor produced the local
bytes: choose the pointer relocation kind, expand the `(offset, id)`
relocation pairs (functions first with addend 0, then data), and store
the compiled record. -/
def defineDataFinish (m : InjectionModule) (data_id : Nat) (data_ctx : DataDescription)
    (bytes : List Nat) (data_region : Nat) : DefOutcome :=
  match pointerReloc m.pointer_width with
  | none => .panic "unsupported pointer width"
  | some reloc =>
    let relocs : List RelocEntry :=
      data_ctx.function_relocs.map
        (fun p => ⟨p.1, reloc, data_ctx.function_decls.getD p.2 (.user 0), 0⟩) ++
      data_ctx.data_relocs.map
        (fun p => ⟨p.1, reloc, data_ctx.data_decls.getD p.2.1 (.user 0), p.2.2⟩)
    .ok { m with data_objects := fun i =>
            if i = data_id then some ⟨bytes, relocs, data_region, false⟩
            else m.data_objects i }

/-- `define_data` (module.rs lines 336-414).  The remote allocation
(`allocate_readwrite`/`allocate_readonly`, chosen by the declaration's
`writable` flag) is modelled by the oracle
`alloc : writable → size → align → region`.  Note `Init::Uninitialized`
hits a `panic!`, not a returned error, and the pending-list push
happens before the init descriptor is inspected. -/
def define_data (alloc : Bool → Nat → Option Nat → Nat) (m : InjectionModule)
    (data_id : Nat) (data_ctx : DataDescription) : DefOutcome :=
  let decl := m.declarations.get_data_decl data_id
  if decl.definable = false then .err (.invalidImportDefinition decl.name)
  else if (m.data_objects data_id).isSome then .err (.duplicateDefinition decl.name)
  else if decl.tls then .panic "InjectionModule does not yet support TLS"
  else
    let m1 : InjectionModule :=
      { m with data_objects_to_finalize := m.data_objects_to_finalize ++ [data_id] }
    let size := data_ctx.init.size
    let data_region := alloc decl.writable size data_ctx.align
    match data_ctx.init with
    | .uninitialized => .panic "data is not initialized yet"
    | .zeros _ => defineDataFinish m1 data_id data_ctx (List.replicate size 0) data_region
    | .bytes contents => defineDataFinish m1 data_id data_ctx contents data_region

/-! ## Breakpoint manager (src/target/linux/mod.rs)

The debuggee is modelled by its byte-addressed memory, the breakpoint
table, the register file (only `rip` is used by this code) and a ghost
log of the ptrace calls issued, in order.  `ptrace::read`/`write` on a
word operate on 8 consecutive bytes, little-endian. -/

structure BreakpointEntry where
  replaced_byte : Nat
  on_trap : Nat
deriving DecidableEq

structure Breakpoint where
  addr : Nat
  on_trap : Nat
deriving DecidableEq

/-- Ghost trace of OS-level operations on the tracee. -/
inductive PtraceEv where
  | peek
  | poke
  | step
  | wait
  | getRegs
  | setRegs
  | cont
deriving DecidableEq

structure Regs where
  rip : Nat
deriving DecidableEq

/-- The state of `LinuxTarget` plus the debuggee memory and registers
it manipulates through ptrace. -/
structure LinuxTarget where
  mem : Nat → Nat
  breakpoints : Nat → Option BreakpointEntry
  regs : Regs
  log : List PtraceEv

/-- Little-endian value of a byte list. -/
def leVal : List Nat → Nat
  | [] => 0
  | b :: bs => b + 256 * leVal bs

/-- The 8 bytes of the machine word at `addr`. -/
def wordAt (mem : Nat → Nat) (addr : Nat) : List Nat :=
  (List.range 8).map fun i => mem (addr + i)

/-- `ptrace::read`: one little-endian machine word at `addr`. -/
def ptraceReadWord (mem : Nat → Nat) (addr : Nat) : Nat :=
  leVal (wordAt mem addr)

/-- `ptrace::write`: store the 8 little-endian bytes of `w` at `addr`. -/
def ptraceWriteWord (mem : Nat → Nat) (addr w : Nat) : Nat → Nat :=
  fun i => if addr ≤ i ∧ i < addr + 8 then w / 256 ^ (i - addr) % 256 else mem i

/-- Result of a target operation: `Ok`, returned `Err`, or panic. -/
inductive TgtRes (α : Type) where
  | ok (val : α)
  | err (msg : String)
  | panic (msg : String)

def TgtRes.getVal {α : Type} (d : α) : TgtRes α → α
  | .ok val => val
  | _ => d

def TgtRes.isOk {α : Type} : TgtRes α → Bool
  | .ok _ => true
  | _ => false

/-- `set_breakpoint` (linux/mod.rs lines 82-103): read the word at
`addr`, record its low byte with the callback (duplicates hit the
`assert!`, a panic), and write the word back with the low byte replaced
by `0xcc`. -/
def set_breakpoint (t : LinuxTarget) (breakpoint : Breakpoint) : TgtRes LinuxTarget :=
  let word := ptraceReadWord t.mem breakpoint.addr
  if (t.breakpoints breakpoint.addr).isSome then .panic "Breakpoint already set"
  else
    .ok { mem := ptraceWriteWord t.mem breakpoint.addr (word - word % 256 + 0xcc)
        , breakpoints := fun a =>
            if a = breakpoint.addr then some ⟨word % 256, breakpoint.on_trap⟩
            else t.breakpoints a
        , regs := t.regs
        , log := t.log ++ [.peek, .poke] }

/-- `remove_breakpoint` (linux/mod.rs lines 105-120): take the entry
(`Err` if absent), read the word at `addr` and write it back with the
low byte restored to the saved byte; return the callback. -/
def remove_breakpoint (t : LinuxTarget) (addr : Nat) : TgtRes (LinuxTarget × Breakpoint) :=
  match t.breakpoints addr with
  | none => .err "Breakpoint not found"
  | some breakpoint_entry =>
    let word := ptraceReadWord t.mem addr
    .ok ({ mem := ptraceWriteWord t.mem addr (word - word % 256 + breakpoint_entry.replaced_byte)
         , breakpoints := fun a => if a = addr then none else t.breakpoints a
         , regs := t.regs
         , log := t.log ++ [.peek, .poke] },
         ⟨addr, breakpoint_entry.on_trap⟩)

/-- `unpause` (linux/mod.rs lines 123-141): read the registers; if a
breakpoint entry exists at `rip - 1`, remove it, single-step, wait,
re-set it with the same callback, rewind `rip` by one and write the
registers back; in all cases continue the tracee.  The single-stepped
instruction's own effects on the debuggee are outside this model; the
ghost log records the order of the ptrace calls. -/
def unpause (t : LinuxTarget) : TgtRes LinuxTarget :=
  if (t.breakpoints (t.regs.rip - 1)).isSome then
    match remove_breakpoint { t with log := t.log ++ [.getRegs] } (t.regs.rip - 1) with
    | .ok (t2, breakpoint) =>
      match set_breakpoint { t2 with log := t2.log ++ [.step, .wait] }
          ⟨t.regs.rip - 1, breakpoint.on_trap⟩ with
      | .ok t4 =>
        .ok { t4 with regs := ⟨t.regs.rip - 1⟩, log := (t4.log ++ [.setRegs]) ++ [.cont] }
      | .err msg => .err msg
      | .panic msg => .panic msg
    | .err msg => .err msg
    | .panic msg => .panic msg
  else .ok { t with log := (t.log ++ [.getRegs]) ++ [.cont] }

/-! ## Batched memory reads (src/target/linux/readmem.rs) -/

/-- A single read operation: remote location and length (the local
destination pointer plays no role in the error logic). -/
structure ReadOp where
  remote_base : Nat
  len : Nat
deriving DecidableEq

/-- `ReadMemory`: accumulated batch of read operations. -/
structure ReadMemory where
  read_ops : List ReadOp
deriving DecidableEq

/-- `ReadMemory::read::<T>`: push an operation of `size_of::<T>()` bytes. -/
def ReadMemory.read (r : ReadMemory) (size remote_base : Nat) : ReadMemory :=
  ⟨r.read_ops ++ [⟨remote_base, size⟩]⟩

/-- Total requested length of the batch (the sum of the `iov_len`s). -/
def ReadMemory.totalLen (r : ReadMemory) : Nat :=
  (r.read_ops.map ReadOp.len).sum

/-- `ReadMemory::apply` (readmem.rs lines 72-106).  The outcome of the
`process_vm_readv` syscall is the oracle `readv` giving the number of
bytes transferred, `-1` on outright failure.  The source returns an
error exactly when the result is `-1`; the byte count is otherwise
ignored (`// fixme: check that it's an expected number of read bytes`). -/
def ReadMemory.apply (readv : List ReadOp → Int) (r : ReadMemory) : Except String Unit :=
  let bytes_read := readv r.read_ops
  if bytes_read = -1 then .error "process_vm_readv failed" else .ok ()

/-! ## Concrete instances used by witnesses and counterexamples -/

/-- A declaration table where every user index is a function mapped to
itself. -/
def declsFuncOnly : ModuleDeclarations :=
  { is_function := fun _ => true
  , get_function_id := fun u => u
  , get_data_id := fun u => u
  , get_function_decl := fun _ => ⟨"f", true⟩
  , get_data_decl := fun _ => ⟨"d", true, false, true⟩ }

/-- Module with no compiled objects; `lookup_symbol` returns 42. -/
def mExt : InjectionModule :=
  { declarations := declsFuncOnly
  , functions := fun _ => none
  , data_objects := fun _ => none
  , functions_to_finalize := []
  , data_objects_to_finalize := []
  , lookup_symbol := fun _ => 42
  , libcall_names := fun _ => "memcpy"
  , pointer_width := .u64 }

/-- Module with one compiled, NOT yet finalized function at id 0. -/
def mPending : InjectionModule :=
  { mExt with functions := fun i => if i = 0 then some ⟨[1, 2], [], 4096, false⟩ else none }

/-- Module with three pending reloc-free functions of regions 100, 200,
300. -/
def mThree : InjectionModule :=
  { mExt with
    functions := fun i =>
      if i = 0 then some ⟨[0], [], 100, false⟩
      else if i = 1 then some ⟨[0], [], 200, false⟩
      else if i = 2 then some ⟨[0], [], 300, false⟩
      else none
  , functions_to_finalize := [0, 1, 2] }

/-- Write oracle that fails exactly for region 200. -/
def wFail200 : Nat → List Nat → Bool := fun region _ => decide (region ≠ 200)

/-- Write oracle that always succeeds. -/
def wAlways : Nat → List Nat → Bool := fun _ _ => true

/-- Module with one pending function (id 0) and one pending data object
(id 0). -/
def mOneEach : InjectionModule :=
  { mExt with
    functions := fun i => if i = 0 then some ⟨[7], [], 16, false⟩ else none
  , data_objects := fun i => if i = 0 then some ⟨[8], [], 32, false⟩ else none
  , functions_to_finalize := [0]
  , data_objects_to_finalize := [0] }

/-- Allocation oracle returning a fixed region. -/
def allocFixed : Bool → Nat → Option Nat → Nat := fun _ _ _ => 8192

/-- Data descriptions for the three init descriptors. -/
def ctxUninit : DataDescription := ⟨.uninitialized, [], [], [], [], none⟩

def ctxZeros3 : DataDescription := ⟨.zeros 3, [], [], [], [], none⟩

def ctxBytes56 : DataDescription := ⟨.bytes [5, 6], [], [], [], [], none⟩

/-- An abs8 relocation entry at offset 0 against user symbol 0. -/
def rAbs8 : RelocEntry := ⟨0, .abs8, .user 0, 0⟩

/-- Target with uniform memory byte 0x90 and no breakpoints. -/
def tClean : LinuxTarget :=
  { mem := fun _ => 0x90
  , breakpoints := fun _ => none
  , regs := ⟨0⟩
  , log := [] }

/-- Target stopped just after an INT3 at address 9 (rip = 10), with the
breakpoint installed there. -/
def tAtBp : LinuxTarget :=
  { mem := fun i => if i = 9 then 0xcc else 0x90
  , breakpoints := fun a => if a = 9 then some ⟨0x90, 5⟩ else none
  , regs := ⟨10⟩
  , log := [] }

/-- A batch asking for 8 bytes at remote address 0. -/
def rm8 : ReadMemory := ⟨[⟨0, 8⟩]⟩

/-- A `process_vm_readv` oracle that transfers only 4 bytes. -/
def readvShort : List ReadOp → Int := fun _ => 4

/-! # Theorems -/

/-! ## Byte-buffer lemmas -/

theorem writeLE_length : ∀ (w : Nat) (bytes : List Nat) (off v : Nat),
    (writeLE bytes off w v).length = bytes.length := by
  intro w
  induction w with
  | zero => intro bytes off v; rfl
  | succ n ih =>
    intro bytes off v
    simp [writeLE, ih]

theorem writeLE_getD_lt : ∀ (w : Nat) (bytes : List Nat) (off v i : Nat), i < off →
    (writeLE bytes off w v).getD i 0 = bytes.getD i 0 := by
  intro w
  induction w with
  | zero => intro bytes off v i _; rfl
  | succ n ih =>
    intro bytes off v i hi
    show (writeLE (bytes.set off (v % 256)) (off + 1) n (v / 256)).getD i 0 = bytes.getD i 0
    rw [ih _ _ _ _ (Nat.lt_succ_of_lt hi)]
    simp only [List.getD, List.get?_eq_getElem?]
    rw [List.getElem?_set_ne (Ne.symm (Nat.ne_of_lt hi))]

theorem readLE_writeLE : ∀ (w : Nat) (bytes : List Nat) (off v : Nat),
    off + w ≤ bytes.length →
    readLE (writeLE bytes off w v) off w = v % 256 ^ w := by
  intro w
  induction w with
  | zero => intro bytes off v _; simp [writeLE, readLE, Nat.mod_one]
  | succ n ih =>
    intro bytes off v h
    have hoff : off < bytes.length := by omega
    have hrest : readLE (writeLE (bytes.set off (v % 256)) (off + 1) n (v / 256)) (off + 1) n
        = (v / 256) % 256 ^ n := by
      apply ih
      simp only [List.length_set]
      omega
    have hkeep : (writeLE (bytes.set off (v % 256)) (off + 1) n (v / 256)).getD off 0
        = (bytes.set off (v % 256)).getD off 0 :=
      writeLE_getD_lt _ _ _ _ _ (Nat.lt_succ_self off)
    have hset : (bytes.set off (v % 256)).getD off 0 = v % 256 := by
      simp only [List.getD, List.get?_eq_getElem?]
      rw [List.getElem?_set_eq_of_lt _ hoff]
      rfl
    calc readLE (writeLE bytes off (n + 1) v) off (n + 1)
        = (writeLE (bytes.set off (v % 256)) (off + 1) n (v / 256)).getD off 0
          + 256 * readLE (writeLE (bytes.set off (v % 256)) (off + 1) n (v / 256)) (off + 1) n := by
          simp [writeLE, readLE]
      _ = v % 256 + 256 * ((v / 256) % 256 ^ n) := by rw [hkeep, hset, hrest]
      _ = v % 256 ^ (n + 1) := by
          rw [pow_succ, mul_comm (256 ^ n) 256, Nat.mod_mul]

theorem u64of_lt (i : Int) : u64of i < 2 ^ 64 := by
  unfold u64of
  have h := Int.emod_lt_of_pos i (b := 2 ^ 64) (by norm_num)
  omega

theorem u32of_lt (i : Int) : u32of i < 2 ^ 32 := by
  unfold u32of
  have h := Int.emod_lt_of_pos i (b := 2 ^ 32) (by norm_num)
  omega

theorem u32of_sub_u64of (x y : Int) : u32of ((u64of x : Int) - y) = u32of (x - y) := by
  unfold u64of u32of
  have hx : ((x % 2 ^ 64 : Int).toNat : Int) = x % 2 ^ 64 :=
    Int.toNat_of_nonneg (Int.emod_nonneg _ (by norm_num))
  rw [hx]
  have hdvd : ((2 : Int) ^ 32) ∣ ((2 : Int) ^ 64) := ⟨2 ^ 32, by norm_num⟩
  have h : (x % 2 ^ 64 - y) % 2 ^ 32 = (x - y) % 2 ^ 32 := by
    rw [Int.sub_emod, Int.emod_emod_of_dvd x hdvd, ← Int.sub_emod]
  rw [h]

theorem applyReloc_ne_ub (m : InjectionModule) (pos : Nat) (bytes : List Nat) (r : RelocEntry)
    (h : r.offset + relocWidth r.reloc ≤ bytes.length) :
    applyReloc m pos bytes r ≠ .ub := by
  unfold applyReloc writeLEChecked
  cases hr : r.reloc <;> simp [hr, relocWidth] at h ⊢ <;> simp [h]

theorem applyReloc_ok_length (m : InjectionModule) (pos : Nat) (bytes b : List Nat)
    (r : RelocEntry) (h : applyReloc m pos bytes r = .ok b) : b.length = bytes.length := by
  unfold applyReloc writeLEChecked at h
  cases hr : r.reloc <;> simp only [hr] at h
  all_goals try exact RelocResult.noConfusion h
  all_goals
    split at h
    next heq =>
      cases h
      split at heq
      · cases heq; exact writeLE_length _ _ _ _
      · exact Option.noConfusion heq
    next heq => exact RelocResult.noConfusion h

/-! ## Claim C1: relocation patching -/

/-- C1: During finalize, for a relocation entry with resolved target
address `T = get_definition m name`, addend `a`, object region `pos`
and offset `off`, with `W = T + a` computed as signed 64-bit: `Abs8`
writes the 64-bit little-endian value `W` at `off` in the local
buffer; `Abs4` writes the low 32 bits of `W`; `PCRel4`/`CallPCRel4`
write the 32-bit value `W - (pos + off)`; and
`GOTPCRel4`/`CallPLTRel4` are a hard error
("unexpected PIC relocation"). -/
theorem applyReloc_patches_as_specified (m : InjectionModule) (pos : Nat) (bytes : List Nat)
    (r : RelocEntry) :
    (r.reloc = .abs8 → r.offset + 8 ≤ bytes.length →
      ∃ b, applyReloc m pos bytes r = .ok b ∧
        readLE b r.offset 8 = u64of ((get_definition m r.name : Int) + r.addend)) ∧
    (r.reloc = .abs4 → r.offset + 4 ≤ bytes.length →
      ∃ b, applyReloc m pos bytes r = .ok b ∧
        readLE b r.offset 4 = u64of ((get_definition m r.name : Int) + r.addend) % 2 ^ 32) ∧
    ((r.reloc = .x86PCRel4 ∨ r.reloc = .x86CallPCRel4) → r.offset + 4 ≤ bytes.length →
      ∃ b, applyReloc m pos bytes r = .ok b ∧
        readLE b r.offset 4 =
          u32of (((get_definition m r.name : Int) + r.addend) - ((pos : Int) + (r.offset : Int)))) ∧
    ((r.reloc = .x86GOTPCRel4 ∨ r.reloc = .x86CallPLTRel4) →
      applyReloc m pos bytes r = .panic "unexpected PIC relocation") := by
  refine ⟨?_, ?_, ?_, ?_⟩
  · intro hr hlen
    refine ⟨writeLE bytes r.offset 8 (u64of ((get_definition m r.name : Int) + r.addend)), ?_, ?_⟩
    · unfold applyReloc writeLEChecked
      simp [hr, hlen]
    · rw [readLE_writeLE _ _ _ _ hlen]
      apply Nat.mod_eq_of_lt
      rw [show (256 : Nat) ^ 8 = 2 ^ 64 by norm_num]
      exact u64of_lt _
  · intro hr hlen
    refine ⟨writeLE bytes r.offset 4 (u64of ((get_definition m r.name : Int) + r.addend)), ?_, ?_⟩
    · unfold applyReloc writeLEChecked
      simp [hr, hlen]
    · rw [readLE_writeLE _ _ _ _ hlen]
      rw [show (256 : Nat) ^ 4 = 2 ^ 32 by norm_num]
  · intro hr hlen
    refine ⟨writeLE bytes r.offset 4
      (u32of (((u64of ((get_definition m r.name : Int) + r.addend)) : Int)
        - ((pos : Int) + (r.offset : Int)))), ?_, ?_⟩
    · unfold applyReloc writeLEChecked
      rcases hr with hr | hr <;> simp [hr, hlen]
    · rw [readLE_writeLE _ _ _ _ hlen]
      rw [Nat.mod_eq_of_lt (by rw [show (256 : Nat) ^ 4 = 2 ^ 32 by norm_num]; exact u32of_lt _)]
      exact u32of_sub_u64of _ _
  · intro hr
    unfold applyReloc
    rcases hr with hr | hr <;> simp [hr]

/-- Witness for C1: an `Abs8` relocation at offset 0 against an
undefined user symbol resolved through `lookup_symbol` to 42 patches
the 64-bit value 42. -/
theorem applyReloc_patches_witness :
    readLE ((applyReloc mExt 0 (List.replicate 8 0) rAbs8).okBytes []) 0 8 = 42 := by
  obtain ⟨b, hb, hv⟩ :=
    (applyReloc_patches_as_specified mExt 0 (List.replicate 8 0) rAbs8).1 rfl (by decide)
  rw [hb]
  show readLE b 0 8 = 42
  have hv2 : readLE b 0 8 = u64of ((get_definition mExt rAbs8.name : Int) + rAbs8.addend) := hv
  rw [hv2]
  decide

/-! ## Claim C2: symbol resolution -/

/-- C2: a user symbol resolves to the region of the compiled object
for its Id when such an object exists (whether or not it is
finalized), and otherwise to `lookup_symbol` of the declaration's
name; a libcall reference maps its tag through `libcall_names` and
then `lookup_symbol`. -/
theorem get_definition_resolution (m : InjectionModule) (u libcall : Nat) :
    (m.declarations.is_function u = true →
      (∀ c, m.functions (m.declarations.get_function_id u) = some c →
        get_definition m (.user u) = c.region) ∧
      (m.functions (m.declarations.get_function_id u) = none →
        get_definition m (.user u) =
          m.lookup_symbol
            (m.declarations.get_function_decl (m.declarations.get_function_id u)).name)) ∧
    (m.declarations.is_function u = false →
      (∀ c, m.data_objects (m.declarations.get_data_id u) = some c →
        get_definition m (.user u) = c.region) ∧
      (m.data_objects (m.declarations.get_data_id u) = none →
        get_definition m (.user u) =
          m.lookup_symbol (m.declarations.get_data_decl (m.declarations.get_data_id u)).name)) ∧
    get_definition m (.libCall libcall) = m.lookup_symbol (m.libcall_names libcall) := by
  refine ⟨?_, ?_, rfl⟩
  · intro hf
    constructor
    · intro c hc; simp [get_definition, hf, hc]
    · intro hc; simp [get_definition, hf, hc]
  · intro hf
    constructor
    · intro c hc; simp [get_definition, hf, hc]
    · intro hc; simp [get_definition, hf, hc]

/-- Witness for C2: a compiled but NOT finalized function resolves to
its region (4096); with no compiled object the same name resolves via
`lookup_symbol` (42). -/
theorem get_definition_resolution_witness :
    get_definition mPending (.user 0) = 4096 ∧ get_definition mExt (.user 0) = 42 := by
  constructor
  · have h := ((get_definition_resolution mPending 0 0).1 rfl).1 ⟨[1, 2], [], 4096, false⟩ rfl
    simpa using h
  · have h := ((get_definition_resolution mExt 0 0).1 rfl).2 rfl
    simpa using h

/-! ## Claim C9: relocation patching is bounds-safe only under the
offset-plus-width precondition -/

/-- C9: patching writes 4 or 8 bytes at the relocation's offset with
no bounds check; under the precondition that every entry satisfies
`offset + relocWidth ≤ len(bytes)`, no patch writes outside the buffer
(the loop never reaches undefined behaviour, and the buffer length is
preserved); without it, a write-patching entry (Abs8 shown) whose
bound fails is an out-of-bounds write. -/
theorem perform_relocations_memsafe (m : InjectionModule) (pos : Nat) :
    (∀ (bytes : List Nat) (relocs : List RelocEntry),
      (∀ r ∈ relocs, r.offset + relocWidth r.reloc ≤ bytes.length) →
      perform_relocations m pos bytes relocs ≠ .ub ∧
      (∀ b, perform_relocations m pos bytes relocs = .ok b → b.length = bytes.length)) ∧
    (∀ (bytes : List Nat) (r : RelocEntry), r.reloc = .abs8 →
      bytes.length < r.offset + 8 → applyReloc m pos bytes r = .ub) := by
  constructor
  · intro bytes relocs
    induction relocs generalizing bytes with
    | nil =>
      intro _
      exact ⟨by simp [perform_relocations], fun b hb => by cases hb; rfl⟩
    | cons r rs ih =>
      intro hpre
      have hr := hpre r (List.mem_cons_self r rs)
      cases happ : applyReloc m pos bytes r with
      | ok b =>
        have hlen := applyReloc_ok_length m pos bytes b r happ
        have hpre2 : ∀ r2 ∈ rs, r2.offset + relocWidth r2.reloc ≤ b.length := by
          intro r2 h2
          rw [hlen]
          exact hpre r2 (List.mem_cons_of_mem _ h2)
        obtain ⟨hn, hl⟩ := ih b hpre2
        constructor
        · show perform_relocations m pos bytes (r :: rs) ≠ .ub
          simp only [perform_relocations, happ]
          exact hn
        · intro b2 hb2
          simp only [perform_relocations, happ] at hb2
          rw [hl b2 hb2, hlen]
      | panic msg =>
        constructor
        · simp only [perform_relocations, happ]
          exact fun h => RelocResult.noConfusion h
        · intro b2 hb2
          simp only [perform_relocations, happ] at hb2
          exact RelocResult.noConfusion hb2
      | ub => exact absurd happ (applyReloc_ne_ub m pos bytes r hr)
  · intro bytes r hr hlen
    unfold applyReloc writeLEChecked
    simp [hr, show ¬ (r.offset + 8 ≤ bytes.length) by omega]

/-- Witness for C9: an in-bounds Abs8 relocation over an 8-byte buffer
is processed without any out-of-bounds write. -/
theorem perform_relocations_memsafe_witness :
    perform_relocations mExt 0 (List.replicate 8 0) [rAbs8] ≠ .ub := by
  exact ((perform_relocations_memsafe mExt 0).1 (List.replicate 8 0) [rAbs8] (by decide)).1

/-! ## Claim C8: short reads -/

/-- C8 counterexample: a batch requesting 8 bytes for which
`process_vm_readv` transfers only 4 bytes (a short read) is NOT
surfaced as an error — `apply` returns `Ok`. -/
theorem readmem_short_read_returns_ok :
    ReadMemory.apply readvShort rm8 = .ok () ∧
    readvShort rm8.read_ops < (rm8.totalLen : Int) := by
  exact ⟨rfl, by decide⟩

/-- C8 amended: `apply` returns an error exactly when the
scatter-gather remote-read syscall itself fails outright (returns -1);
a short or partially faulting read — any transferred byte count other
than -1, however small — returns `Ok` unchecked. -/
theorem readmem_apply_error_iff (readv : List ReadOp → Int) (r : ReadMemory) :
    ReadMemory.apply readv r = .error "process_vm_readv failed" ↔ readv r.read_ops = -1 := by
  unfold ReadMemory.apply
  by_cases h : readv r.read_ops = -1 <;> simp [h]

/-! ## Finalization lemmas -/

theorem setFuncFinalized_at (m : InjectionModule) (id : Nat) (c : CompiledBytes) :
    (setFuncFinalized m id c).functions id = some ⟨[], c.relocs, c.region, true⟩ := by
  simp [setFuncFinalized]

theorem setFuncFinalized_ne (m : InjectionModule) (id : Nat) (c : CompiledBytes)
    (j : Nat) (hj : j ≠ id) : (setFuncFinalized m id c).functions j = m.functions j := by
  simp [setFuncFinalized, hj]

theorem setDataFinalized_at (m : InjectionModule) (id : Nat) (c : CompiledBytes) :
    (setDataFinalized m id c).data_objects id = some ⟨[], c.relocs, c.region, true⟩ := by
  simp [setDataFinalized]

theorem setDataFinalized_ne (m : InjectionModule) (id : Nat) (c : CompiledBytes)
    (j : Nat) (hj : j ≠ id) : (setDataFinalized m id c).data_objects j = m.data_objects j := by
  simp [setDataFinalized, hj]

theorem setFuncFinalized_preserves (m : InjectionModule) (id : Nat) (c : CompiledBytes)
    (hc : m.functions id = some c) (hfin : c.finalized = false) :
    ∀ j d, m.functions j = some d → d.finalized = true →
      (setFuncFinalized m id c).functions j = some d := by
  intro j d hd hdfin
  by_cases hj : j = id
  · subst hj
    rw [hd] at hc
    cases hc
    rw [hdfin] at hfin
    exact Bool.noConfusion hfin
  · rw [setFuncFinalized_ne m id c j hj]
    exact hd

theorem setDataFinalized_preserves (m : InjectionModule) (id : Nat) (c : CompiledBytes)
    (hc : m.data_objects id = some c) (hfin : c.finalized = false) :
    ∀ j d, m.data_objects j = some d → d.finalized = true →
      (setDataFinalized m id c).data_objects j = some d := by
  intro j d hd hdfin
  by_cases hj : j = id
  · subst hj
    rw [hd] at hc
    cases hc
    rw [hdfin] at hfin
    exact Bool.noConfusion hfin
  · rw [setDataFinalized_ne m id c j hj]
    exact hd

/-- `finalize_function` returns `Ok`/`Err` exactly from the state in
which the object was marked finalized and its bytes taken. -/
theorem finalize_function_shape (wOk : Nat → List Nat → Bool) (m m1 : InjectionModule)
    (func_id : Nat)
    (h : finalize_function wOk m func_id = .ok m1 ∨ finalize_function wOk m func_id = .err m1) :
    ∃ c, m.functions func_id = some c ∧ c.finalized = false ∧ m1 = setFuncFinalized m func_id c := by
  unfold finalize_function at h
  cases hf : m.functions func_id with
  | none =>
    rw [hf] at h
    rcases h with h | h <;> exact FinOutcome.noConfusion h
  | some c =>
    simp only [hf] at h
    by_cases hfin : c.finalized = true
    · rw [if_pos hfin] at h
      rcases h with h | h <;> exact FinOutcome.noConfusion h
    · rw [if_neg hfin] at h
      cases hperf : perform_relocations (setFuncFinalized m func_id c) c.region c.bytes c.relocs with
      | ok code =>
        simp only [hperf] at h
        by_cases hw : wOk c.region code = true
        · rw [if_pos hw] at h
          rcases h with h | h
          · cases h
            exact ⟨c, rfl, by simpa using hfin, rfl⟩
          · exact FinOutcome.noConfusion h
        · rw [if_neg hw] at h
          rcases h with h | h
          · exact FinOutcome.noConfusion h
          · cases h
            exact ⟨c, rfl, by simpa using hfin, rfl⟩
      | panic msg =>
        simp only [hperf] at h
        rcases h with h | h <;> exact FinOutcome.noConfusion h
      | ub =>
        simp only [hperf] at h
        rcases h with h | h <;> exact FinOutcome.noConfusion h

theorem finalize_data_shape (wOk : Nat → List Nat → Bool) (m m1 : InjectionModule)
    (data_id : Nat)
    (h : finalize_data wOk m data_id = .ok m1 ∨ finalize_data wOk m data_id = .err m1) :
    ∃ c, m.data_objects data_id = some c ∧ c.finalized = false ∧
      m1 = setDataFinalized m data_id c := by
  unfold finalize_data at h
  cases hf : m.data_objects data_id with
  | none =>
    rw [hf] at h
    rcases h with h | h <;> exact FinOutcome.noConfusion h
  | some c =>
    simp only [hf] at h
    by_cases hfin : c.finalized = true
    · rw [if_pos hfin] at h
      rcases h with h | h <;> exact FinOutcome.noConfusion h
    · rw [if_neg hfin] at h
      cases hperf : perform_relocations (setDataFinalized m data_id c) c.region c.bytes c.relocs with
      | ok code =>
        simp only [hperf] at h
        by_cases hw : wOk c.region code = true
        · rw [if_pos hw] at h
          rcases h with h | h
          · cases h
            exact ⟨c, rfl, by simpa using hfin, rfl⟩
          · exact FinOutcome.noConfusion h
        · rw [if_neg hw] at h
          rcases h with h | h
          · exact FinOutcome.noConfusion h
          · cases h
            exact ⟨c, rfl, by simpa using hfin, rfl⟩
      | panic msg =>
        simp only [hperf] at h
        rcases h with h | h <;> exact FinOutcome.noConfusion h
      | ub =>
        simp only [hperf] at h
        rcases h with h | h <;> exact FinOutcome.noConfusion h

theorem finalize_funcs_ok_spec (wOk : Nat → List Nat → Bool) :
    ∀ (ids : List Nat) (m : InjectionModule) (tr tr2 : List ObjRef) (m2 : InjectionModule),
    finalize_funcs wOk m ids tr = (tr2, .ok m2) →
    tr2 = tr ++ ids.map ObjRef.func ∧
    m2.functions_to_finalize = m.functions_to_finalize ∧
    m2.data_objects_to_finalize = m.data_objects_to_finalize ∧
    m2.data_objects = m.data_objects ∧
    (∀ id c, m.functions id = some c → c.finalized = true → m2.functions id = some c) ∧
    (∀ fid, ObjRef.func fid ∈ tr2 → ObjRef.func fid ∈ tr ∨
      ∃ c, m.functions fid = some c ∧
        m2.functions fid = some ⟨[], c.relocs, c.region, true⟩) ∧
    (∀ did, ObjRef.data did ∈ tr2 → ObjRef.data did ∈ tr) := by
  intro ids
  induction ids with
  | nil =>
    intro m tr tr2 m2 h
    unfold finalize_funcs at h
    cases h
    exact ⟨by simp, rfl, rfl, rfl, fun _ _ hc _ => hc, fun _ hm => Or.inl hm, fun _ hm => hm⟩
  | cons func_id rest ih =>
    intro m tr tr2 m2 h
    unfold finalize_funcs at h
    cases hstep : finalize_function wOk m func_id with
    | ok m1 =>
      rw [hstep] at h
      obtain ⟨c, hc, hcf, hm1⟩ := finalize_function_shape wOk m m1 func_id (Or.inl hstep)
      obtain ⟨h1, h2, h3, h4, h5, h6, h7⟩ := ih m1 (tr ++ [.func func_id]) tr2 m2 h
      subst hm1
      refine ⟨by simpa using h1, h2, h3, h4, ?_, ?_, ?_⟩
      · intro id d hd hdfin
        exact h5 id d (setFuncFinalized_preserves m func_id c hc hcf id d hd hdfin) hdfin
      · intro fid hmem
        rcases h6 fid hmem with hin | hex
        · rcases List.mem_append.mp hin with hin2 | hin2
          · exact Or.inl hin2
          · have hfid : fid = func_id := by
              cases List.mem_singleton.mp hin2
              rfl
            subst hfid
            right
            exact ⟨c, hc,
              h5 fid ⟨[], c.relocs, c.region, true⟩ (setFuncFinalized_at m fid c) rfl⟩
        · obtain ⟨c2, hc2, hm2⟩ := hex
          right
          by_cases hfid : fid = func_id
          · subst hfid
            rw [setFuncFinalized_at m fid c] at hc2
            cases hc2
            exact ⟨c, hc, hm2⟩
          · rw [setFuncFinalized_ne m func_id c fid hfid] at hc2
            exact ⟨c2, hc2, hm2⟩
      · intro did hmem
        have hin := h7 did hmem
        rcases List.mem_append.mp hin with hin2 | hin2
        · exact hin2
        · exact absurd (List.mem_singleton.mp hin2) (by simp)
    | err m1 =>
      rw [hstep] at h
      cases h
    | panic msg =>
      rw [hstep] at h
      cases h
    | ub =>
      rw [hstep] at h
      cases h

theorem finalize_funcs_err_spec (wOk : Nat → List Nat → Bool) :
    ∀ (ids : List Nat) (m : InjectionModule) (tr tr2 : List ObjRef) (m2 : InjectionModule),
    finalize_funcs wOk m ids tr = (tr2, .err m2) →
    m2.functions_to_finalize = m.functions_to_finalize ∧
    m2.data_objects_to_finalize = m.data_objects_to_finalize ∧
    m2.data_objects = m.data_objects ∧
    (∀ id c, m.functions id = some c → c.finalized = true → m2.functions id = some c) ∧
    (∃ fid c, tr2.getLast? = some (.func fid) ∧ m.functions fid = some c ∧
      m2.functions fid = some ⟨[], c.relocs, c.region, true⟩) ∧
    (∀ fid, ObjRef.func fid ∈ tr2 → ObjRef.func fid ∈ tr ∨
      ∃ c, m.functions fid = some c ∧
        m2.functions fid = some ⟨[], c.relocs, c.region, true⟩) ∧
    (∀ did, ObjRef.data did ∈ tr2 → ObjRef.data did ∈ tr) := by
  intro ids
  induction ids with
  | nil =>
    intro m tr tr2 m2 h
    unfold finalize_funcs at h
    cases h
  | cons func_id rest ih =>
    intro m tr tr2 m2 h
    unfold finalize_funcs at h
    cases hstep : finalize_function wOk m func_id with
    | ok m1 =>
      rw [hstep] at h
      obtain ⟨c, hc, hcf, hm1⟩ := finalize_function_shape wOk m m1 func_id (Or.inl hstep)
      obtain ⟨h2, h3, h4, h5, h8, h6, h7⟩ := ih m1 (tr ++ [.func func_id]) tr2 m2 h
      subst hm1
      refine ⟨h2, h3, h4, ?_, ?_, ?_, ?_⟩
      · intro id d hd hdfin
        exact h5 id d (setFuncFinalized_preserves m func_id c hc hcf id d hd hdfin) hdfin
      · obtain ⟨fid, c2, hlast, hc2, hm2⟩ := h8
        by_cases hfid : fid = func_id
        · subst hfid
          rw [setFuncFinalized_at m fid c] at hc2
          cases hc2
          exact ⟨fid, c, hlast, hc, hm2⟩
        · rw [setFuncFinalized_ne m func_id c fid hfid] at hc2
          exact ⟨fid, c2, hlast, hc2, hm2⟩
      · intro fid hmem
        rcases h6 fid hmem with hin | hex
        · rcases List.mem_append.mp hin with hin2 | hin2
          · exact Or.inl hin2
          · have hfid : fid = func_id := by
              cases List.mem_singleton.mp hin2
              rfl
            subst hfid
            right
            exact ⟨c, hc,
              h5 fid ⟨[], c.relocs, c.region, true⟩ (setFuncFinalized_at m fid c) rfl⟩
        · obtain ⟨c2, hc2, hm2⟩ := hex
          right
          by_cases hfid : fid = func_id
          · subst hfid
            rw [setFuncFinalized_at m fid c] at hc2
            cases hc2
            exact ⟨c, hc, hm2⟩
          · rw [setFuncFinalized_ne m func_id c fid hfid] at hc2
            exact ⟨c2, hc2, hm2⟩
      · intro did hmem
        have hin := h7 did hmem
        rcases List.mem_append.mp hin with hin2 | hin2
        · exact hin2
        · exact absurd (List.mem_singleton.mp hin2) (by simp)
    | err m1 =>
      rw [hstep] at h
      cases h
      obtain ⟨c, hc, hcf, hm1⟩ := finalize_function_shape wOk m _ func_id (Or.inr hstep)
      subst hm1
      refine ⟨rfl, rfl, rfl, ?_, ?_, ?_, ?_⟩
      · exact setFuncFinalized_preserves m func_id c hc hcf
      · exact ⟨func_id, c, List.getLast?_concat _, hc, setFuncFinalized_at m func_id c⟩
      · intro fid hmem
        rcases List.mem_append.mp hmem with hin2 | hin2
        · exact Or.inl hin2
        · have hfid : fid = func_id := by
            cases List.mem_singleton.mp hin2
            rfl
          subst hfid
          exact Or.inr ⟨c, hc, setFuncFinalized_at m fid c⟩
      · intro did hmem
        rcases List.mem_append.mp hmem with hin2 | hin2
        · exact hin2
        · exact absurd (List.mem_singleton.mp hin2) (by simp)
    | panic msg =>
      rw [hstep] at h
      cases h
    | ub =>
      rw [hstep] at h
      cases h

theorem finalize_datas_ok_spec (wOk : Nat → List Nat → Bool) :
    ∀ (ids : List Nat) (m : InjectionModule) (tr tr2 : List ObjRef) (m2 : InjectionModule),
    finalize_datas wOk m ids tr = (tr2, .ok m2) →
    tr2 = tr ++ ids.map ObjRef.data ∧
    m2.functions_to_finalize = m.functions_to_finalize ∧
    m2.data_objects_to_finalize = m.data_objects_to_finalize ∧
    m2.functions = m.functions ∧
    (∀ id c, m.data_objects id = some c → c.finalized = true → m2.data_objects id = some c) ∧
    (∀ did, ObjRef.data did ∈ tr2 → ObjRef.data did ∈ tr ∨
      ∃ c, m.data_objects did = some c ∧
        m2.data_objects did = some ⟨[], c.relocs, c.region, true⟩) ∧
    (∀ fid, ObjRef.func fid ∈ tr2 → ObjRef.func fid ∈ tr) := by
  intro ids
  induction ids with
  | nil =>
    intro m tr tr2 m2 h
    unfold finalize_datas at h
    cases h
    exact ⟨by simp, rfl, rfl, rfl, fun _ _ hc _ => hc, fun _ hm => Or.inl hm, fun _ hm => hm⟩
  | cons data_id rest ih =>
    intro m tr tr2 m2 h
    unfold finalize_datas at h
    cases hstep : finalize_data wOk m data_id with
    | ok m1 =>
      rw [hstep] at h
      obtain ⟨c, hc, hcf, hm1⟩ := finalize_data_shape wOk m m1 data_id (Or.inl hstep)
      obtain ⟨h1, h2, h3, h4, h5, h6, h7⟩ := ih m1 (tr ++ [.data data_id]) tr2 m2 h
      subst hm1
      refine ⟨by simpa using h1, h2, h3, h4, ?_, ?_, ?_⟩
      · intro id d hd hdfin
        exact h5 id d (setDataFinalized_preserves m data_id c hc hcf id d hd hdfin) hdfin
      · intro did hmem
        rcases h6 did hmem with hin | hex
        · rcases List.mem_append.mp hin with hin2 | hin2
          · exact Or.inl hin2
          · have hdid : did = data_id := by
              cases List.mem_singleton.mp hin2
              rfl
            subst hdid
            right
            exact ⟨c, hc,
              h5 did ⟨[], c.relocs, c.region, true⟩ (setDataFinalized_at m did c) rfl⟩
        · obtain ⟨c2, hc2, hm2⟩ := hex
          right
          by_cases hdid : did = data_id
          · subst hdid
            rw [setDataFinalized_at m did c] at hc2
            cases hc2
            exact ⟨c, hc, hm2⟩
          · rw [setDataFinalized_ne m data_id c did hdid] at hc2
            exact ⟨c2, hc2, hm2⟩
      · intro fid hmem
        have hin := h7 fid hmem
        rcases List.mem_append.mp hin with hin2 | hin2
        · exact hin2
        · exact absurd (List.mem_singleton.mp hin2) (by simp)
    | err m1 =>
      rw [hstep] at h
      cases h
    | panic msg =>
      rw [hstep] at h
      cases h
    | ub =>
      rw [hstep] at h
      cases h

theorem finalize_datas_err_spec (wOk : Nat → List Nat → Bool) :
    ∀ (ids : List Nat) (m : InjectionModule) (tr tr2 : List ObjRef) (m2 : InjectionModule),
    finalize_datas wOk m ids tr = (tr2, .err m2) →
    m2.functions_to_finalize = m.functions_to_finalize ∧
    m2.data_objects_to_finalize = m.data_objects_to_finalize ∧
    m2.functions = m.functions ∧
    (∀ id c, m.data_objects id = some c → c.finalized = true → m2.data_objects id = some c) ∧
    (∃ did c, tr2.getLast? = some (.data did) ∧ m.data_objects did = some c ∧
      m2.data_objects did = some ⟨[], c.relocs, c.region, true⟩) ∧
    (∀ did, ObjRef.data did ∈ tr2 → ObjRef.data did ∈ tr ∨
      ∃ c, m.data_objects did = some c ∧
        m2.data_objects did = some ⟨[], c.relocs, c.region, true⟩) ∧
    (∀ fid, ObjRef.func fid ∈ tr2 → ObjRef.func fid ∈ tr) := by
  intro ids
  induction ids with
  | nil =>
    intro m tr tr2 m2 h
    unfold finalize_datas at h
    cases h
  | cons data_id rest ih =>
    intro m tr tr2 m2 h
    unfold finalize_datas at h
    cases hstep : finalize_data wOk m data_id with
    | ok m1 =>
      rw [hstep] at h
      obtain ⟨c, hc, hcf, hm1⟩ := finalize_data_shape wOk m m1 data_id (Or.inl hstep)
      obtain ⟨h2, h3, h4, h5, h8, h6, h7⟩ := ih m1 (tr ++ [.data data_id]) tr2 m2 h
      subst hm1
      refine ⟨h2, h3, h4, ?_, ?_, ?_, ?_⟩
      · intro id d hd hdfin
        exact h5 id d (setDataFinalized_preserves m data_id c hc hcf id d hd hdfin) hdfin
      · obtain ⟨did, c2, hlast, hc2, hm2⟩ := h8
        by_cases hdid : did = data_id
        · subst hdid
          rw [setDataFinalized_at m did c] at hc2
          cases hc2
          exact ⟨did, c, hlast, hc, hm2⟩
        · rw [setDataFinalized_ne m data_id c did hdid] at hc2
          exact ⟨did, c2, hlast, hc2, hm2⟩
      · intro did hmem
        rcases h6 did hmem with hin | hex
        · rcases List.mem_append.mp hin with hin2 | hin2
          · exact Or.inl hin2
          · have hdid : did = data_id := by
              cases List.mem_singleton.mp hin2
              rfl
            subst hdid
            right
            exact ⟨c, hc,
              h5 did ⟨[], c.relocs, c.region, true⟩ (setDataFinalized_at m did c) rfl⟩
        · obtain ⟨c2, hc2, hm2⟩ := hex
          right
          by_cases hdid : did = data_id
          · subst hdid
            rw [setDataFinalized_at m did c] at hc2
            cases hc2
            exact ⟨c, hc, hm2⟩
          · rw [setDataFinalized_ne m data_id c did hdid] at hc2
            exact ⟨c2, hc2, hm2⟩
      · intro fid hmem
        have hin := h7 fid hmem
        rcases List.mem_append.mp hin with hin2 | hin2
        · exact hin2
        · exact absurd (List.mem_singleton.mp hin2) (by simp)
    | err m1 =>
      rw [hstep] at h
      cases h
      obtain ⟨c, hc, hcf, hm1⟩ := finalize_data_shape wOk m _ data_id (Or.inr hstep)
      subst hm1
      refine ⟨rfl, rfl, rfl, ?_, ?_, ?_, ?_⟩
      · exact setDataFinalized_preserves m data_id c hc hcf
      · exact ⟨data_id, c, List.getLast?_concat _, hc, setDataFinalized_at m data_id c⟩
      · intro did hmem
        rcases List.mem_append.mp hmem with hin2 | hin2
        · exact Or.inl hin2
        · have hdid : did = data_id := by
            cases List.mem_singleton.mp hin2
            rfl
          subst hdid
          exact Or.inr ⟨c, hc, setDataFinalized_at m did c⟩
      · intro fid hmem
        rcases List.mem_append.mp hmem with hin2 | hin2
        · exact hin2
        · exact absurd (List.mem_singleton.mp hin2) (by simp)
    | panic msg =>
      rw [hstep] at h
      cases h
    | ub =>
      rw [hstep] at h
      cases h


/-! ## Claim C4: finalize_all processes the snapshot of pending objects,
functions first -/

/-- C4: a `finalize_all` call processes exactly the objects pending at
its start, each exactly once (the pending lists hold each defined
object at most once), in two passes: every pending function is patched
and written before any pending data object.  Both pending lists are
taken (emptied) at the start of their pass, so an object defined
during the call lands in the fresh list and is deferred to the next
finalize call; on success the final pending lists are empty. -/
theorem finalize_all_two_passes (wOk : Nat → List Nat → Bool) (m : InjectionModule)
    (tr : List ObjRef) (m2 : InjectionModule)
    (hN1 : m.functions_to_finalize.Nodup) (hN2 : m.data_objects_to_finalize.Nodup)
    (h : finalize_all wOk m = (tr, .ok m2)) :
    tr = m.functions_to_finalize.map ObjRef.func
        ++ m.data_objects_to_finalize.map ObjRef.data ∧
    tr.Nodup ∧
    m2.functions_to_finalize = [] ∧
    m2.data_objects_to_finalize = [] := by
  unfold finalize_all at h
  cases hfu : finalize_funcs wOk { m with functions_to_finalize := [] }
      m.functions_to_finalize [] with
  | mk tr1 out1 =>
    rw [hfu] at h
    cases out1 with
    | ok m1 =>
      obtain ⟨f1, f2, f3, f4, f5, f6, f7⟩ :=
        finalize_funcs_ok_spec wOk m.functions_to_finalize _ [] tr1 m1 hfu
      obtain ⟨d1, d2, d3, d4, d5, d6, d7⟩ :=
        finalize_datas_ok_spec wOk m1.data_objects_to_finalize _ tr1 tr m2 h
      have hf2 : m1.functions_to_finalize = [] := f2
      have hf3 : m1.data_objects_to_finalize = m.data_objects_to_finalize := f3
      have htr : tr = m.functions_to_finalize.map ObjRef.func
          ++ m.data_objects_to_finalize.map ObjRef.data := by
        rw [d1, f1, hf3]
        simp
      refine ⟨htr, ?_, ?_, d3⟩
      · rw [htr]
        have hinjf : Function.Injective ObjRef.func := fun a b hab => by cases hab; rfl
        have hinjd : Function.Injective ObjRef.data := fun a b hab => by cases hab; rfl
        refine List.Nodup.append (hN1.map hinjf) (hN2.map hinjd) ?_
        intro x hx1 hx2
        rw [List.mem_map] at hx1 hx2
        obtain ⟨a, _, ha⟩ := hx1
        obtain ⟨b, _, hb⟩ := hx2
        rw [← ha] at hb
        exact ObjRef.noConfusion hb
      · have hd2 : m2.functions_to_finalize = m1.functions_to_finalize := d2
        rw [hd2, hf2]
    | err m1 => cases h
    | panic msg => cases h
    | ub => cases h

/-- Witness for C4: with one pending function and one pending data
object, `finalize_all` processes the function first, then the data
object, and empties both pending lists. -/
theorem finalize_all_two_passes_witness :
    (finalize_all wAlways mOneEach).1 = [.func 0, .data 0] ∧
    ((finalize_all wAlways mOneEach).2.getMod mOneEach).functions_to_finalize = [] ∧
    ((finalize_all wAlways mOneEach).2.getMod mOneEach).data_objects_to_finalize = [] := by
  have hOk : finalize_all wAlways mOneEach =
      ((finalize_all wAlways mOneEach).1,
        .ok ((finalize_all wAlways mOneEach).2.getMod mOneEach)) := rfl
  obtain ⟨h1, _, h3, h4⟩ :=
    finalize_all_two_passes wAlways mOneEach _ _ (by decide) (by decide) hOk
  refine ⟨?_, h3, h4⟩
  rw [h1]
  rfl

/-! ## Claim C3: state after a part-way finalize failure -/

/-- C3 counterexample: `finalize_all` on three pending reloc-free
functions (ids 0, 1, 2; regions 100, 200, 300) with the debuggee write
failing for region 200: the call fails after processing ids 0 and 1,
but the failing object (id 1) ends up FINALIZED — the claim says it
remains non-finalized — and the function pending list ends up empty,
so the never-processed id 2 does NOT remain pending for the next
finalize call. -/
theorem finalize_all_failure_counterexample :
    (finalize_all wFail200 mThree).2.isErr = true ∧
    (finalize_all wFail200 mThree).1 = [.func 0, .func 1] ∧
    Option.map CompiledBytes.finalized
      (((finalize_all wFail200 mThree).2.getMod mThree).functions 1) = some true ∧
    ((finalize_all wFail200 mThree).2.getMod mThree).functions_to_finalize = [] := by
  exact ⟨rfl, rfl, rfl, rfl⟩

/-- C3 (amended): if `finalize_all` fails part-way (the write of some
object to the debuggee returns an error), every object finalized
before the call remains unchanged (so finalized, with its region),
and every object processed during the call — including the object
whose write failed, the last processed one — ends finalized with its
region and relocation list unchanged but its local bytes emptied,
despite the failed write; the function pending list is left empty, so
pending functions not yet processed are dropped rather than kept for
the next finalize call; and the data pending list is unchanged when
the failure was in the function pass (the last processed object is a
function) and emptied when it was in the data pass (the last
processed object is a data object). -/
theorem finalize_all_failure_state (wOk : Nat → List Nat → Bool) (m : InjectionModule)
    (tr : List ObjRef) (m2 : InjectionModule)
    (h : finalize_all wOk m = (tr, .err m2)) :
    (∀ id c, m.functions id = some c → c.finalized = true → m2.functions id = some c) ∧
    (∀ id c, m.data_objects id = some c → c.finalized = true → m2.data_objects id = some c) ∧
    (∀ fid, ObjRef.func fid ∈ tr → ∃ c, m.functions fid = some c ∧
      m2.functions fid = some ⟨[], c.relocs, c.region, true⟩) ∧
    (∀ did, ObjRef.data did ∈ tr → ∃ c, m.data_objects did = some c ∧
      m2.data_objects did = some ⟨[], c.relocs, c.region, true⟩) ∧
    m2.functions_to_finalize = [] ∧
    (∀ fid, tr.getLast? = some (.func fid) →
      m2.data_objects_to_finalize = m.data_objects_to_finalize) ∧
    (∀ did, tr.getLast? = some (.data did) → m2.data_objects_to_finalize = []) ∧
    (∃ r, tr.getLast? = some r ∧
      ((∃ fid c, r = ObjRef.func fid ∧ m.functions fid = some c ∧
          m2.functions fid = some ⟨[], c.relocs, c.region, true⟩) ∨
       (∃ did c, r = ObjRef.data did ∧ m.data_objects did = some c ∧
          m2.data_objects did = some ⟨[], c.relocs, c.region, true⟩))) := by
  unfold finalize_all at h
  cases hfu : finalize_funcs wOk { m with functions_to_finalize := [] }
      m.functions_to_finalize [] with
  | mk tr1 out1 =>
    rw [hfu] at h
    cases out1 with
    | ok m1 =>
      obtain ⟨f1, f2, f3, f4, f5, f6, f7⟩ :=
        finalize_funcs_ok_spec wOk m.functions_to_finalize _ [] tr1 m1 hfu
      obtain ⟨g1, g2, g3, g4, g5, g6, g7⟩ :=
        finalize_datas_err_spec wOk m1.data_objects_to_finalize _ tr1 tr m2 h
      have hf2 : m1.functions_to_finalize = [] := f2
      have hf4 : m1.data_objects = m.data_objects := f4
      have hg1 : m2.functions_to_finalize = m1.functions_to_finalize := g1
      have hg2 : m2.data_objects_to_finalize = [] := g2
      have hg3 : m2.functions = m1.functions := g3
      refine ⟨?_, ?_, ?_, ?_, ?_, ?_, fun _ _ => hg2, ?_⟩
      · intro id c hc hfin
        rw [hg3]
        exact f5 id c hc hfin
      · intro id c hc hfin
        have hc2 : ({ m1 with data_objects_to_finalize := [] } :
            InjectionModule).data_objects id = some c := by
          show m1.data_objects id = some c
          rw [hf4]
          exact hc
        exact g4 id c hc2 hfin
      · intro fid hmem
        rcases f6 fid (g7 fid hmem) with hin | hex
        · exact absurd hin (List.not_mem_nil _)
        · obtain ⟨c, hc, hm1f⟩ := hex
          exact ⟨c, hc, by rw [hg3]; exact hm1f⟩
      · intro did hmem
        rcases g6 did hmem with hin | hex
        · exact absurd (f7 did hin) (List.not_mem_nil _)
        · obtain ⟨c, hc2, hm2d⟩ := hex
          have hc3 : m1.data_objects did = some c := hc2
          rw [hf4] at hc3
          exact ⟨c, hc3, hm2d⟩
      · rw [hg1, hf2]
      · intro fid hlast
        obtain ⟨did, c2, hlast2, _, _⟩ := g5
        rw [hlast] at hlast2
        simp at hlast2
      · obtain ⟨did, c2, hlast2, hc2, hm2d⟩ := g5
        have hc3 : m1.data_objects did = some c2 := hc2
        rw [hf4] at hc3
        exact ⟨.data did, hlast2, Or.inr ⟨did, c2, rfl, hc3, hm2d⟩⟩
    | err m1 =>
      cases h
      obtain ⟨e1, e2, e3, e4, e5, e6, e7⟩ :=
        finalize_funcs_err_spec wOk m.functions_to_finalize _ [] _ _ hfu
      have he1 : m2.functions_to_finalize = [] := e1
      have he2 : m2.data_objects_to_finalize = m.data_objects_to_finalize := e2
      have he3 : m2.data_objects = m.data_objects := e3
      refine ⟨?_, ?_, ?_, ?_, he1, fun _ _ => he2, ?_, ?_⟩
      · intro id c hc hfin
        exact e4 id c hc hfin
      · intro id c hc hfin
        rw [he3]
        exact hc
      · intro fid hmem
        rcases e6 fid hmem with hin | hex
        · exact absurd hin (List.not_mem_nil _)
        · exact hex
      · intro did hmem
        exact absurd (e7 did hmem) (List.not_mem_nil _)
      · intro did hlast
        obtain ⟨fid, c, hlast2, _, _⟩ := e5
        rw [hlast] at hlast2
        simp at hlast2
      · obtain ⟨fid, c, hlast2, hc, hm2f⟩ := e5
        exact ⟨.func fid, hlast2, Or.inl ⟨fid, c, rfl, hc, hm2f⟩⟩
    | panic msg => cases h
    | ub => cases h

/-- Witness for C3 (amended): in the failing run of the counterexample
module the failure is in the function pass (the last processed object
is function 1), the failing object keeps its region 200 in a finalized
empty-bytes record, the function pending list is empty and the data
pending list is untouched. -/
theorem finalize_all_failure_state_witness :
    ((finalize_all wFail200 mThree).2.getMod mThree).functions_to_finalize = [] ∧
    ((finalize_all wFail200 mThree).2.getMod mThree).data_objects_to_finalize =
      mThree.data_objects_to_finalize ∧
    ((finalize_all wFail200 mThree).2.getMod mThree).functions 1 =
      some ⟨[], [], 200, true⟩ := by
  have hErr : finalize_all wFail200 mThree =
      ((finalize_all wFail200 mThree).1,
        .err ((finalize_all wFail200 mThree).2.getMod mThree)) := rfl
  obtain ⟨_, _, h3, _, h5, h6, _, _⟩ := finalize_all_failure_state wFail200 mThree _ _ hErr
  refine ⟨h5, h6 1 (by rfl), ?_⟩
  obtain ⟨c, hc, hm2⟩ := h3 1 (by decide)
  have hc2 : some (⟨[0], [], 200, false⟩ : CompiledBytes) = some c := hc
  cases hc2
  exact hm2


/-! ## Claim C10: finalize empties the stored byte buffer -/

/-- C10: finalizing a function or data object takes (empties) the
stored local byte buffer before patching and writing; after a
successful finalize the stored record is finalized with its region and
relocation list unchanged but its bytes vector empty, and
`lookup_function`/`lookup_data_object` return the original region. -/
theorem finalize_takes_bytes (wOk : Nat → List Nat → Bool) (m : InjectionModule) (id : Nat) :
    (∀ c m2, m.functions id = some c → finalize_function wOk m id = .ok m2 →
      m2.functions id = some ⟨[], c.relocs, c.region, true⟩ ∧
      lookup_function m2 id = some c.region) ∧
    (∀ c m2, m.data_objects id = some c → finalize_data wOk m id = .ok m2 →
      m2.data_objects id = some ⟨[], c.relocs, c.region, true⟩ ∧
      lookup_data_object m2 id = some c.region) := by
  constructor
  · intro c m2 hc h
    obtain ⟨c2, hc2, hfin2, hm2⟩ := finalize_function_shape wOk m m2 id (Or.inl h)
    rw [hc] at hc2
    cases hc2
    subst hm2
    refine ⟨setFuncFinalized_at m id c, ?_⟩
    unfold lookup_function
    rw [setFuncFinalized_at m id c]
    rfl
  · intro c m2 hc h
    obtain ⟨c2, hc2, hfin2, hm2⟩ := finalize_data_shape wOk m m2 id (Or.inl h)
    rw [hc] at hc2
    cases hc2
    subst hm2
    refine ⟨setDataFinalized_at m id c, ?_⟩
    unfold lookup_data_object
    rw [setDataFinalized_at m id c]
    rfl

/-- Witness for C10: finalizing the pending function (region 16) and
data object (region 32) succeeds and lookup returns the regions. -/
theorem finalize_takes_bytes_witness :
    lookup_function ((finalize_function wAlways mOneEach 0).getMod mOneEach) 0 = some 16 ∧
    lookup_data_object ((finalize_data wAlways mOneEach 0).getMod mOneEach) 0 = some 32 := by
  constructor
  · have h : finalize_function wAlways mOneEach 0 =
        .ok ((finalize_function wAlways mOneEach 0).getMod mOneEach) := rfl
    exact ((finalize_takes_bytes wAlways mOneEach 0).1 ⟨[7], [], 16, false⟩ _ rfl h).2
  · have h : finalize_data wAlways mOneEach 0 =
        .ok ((finalize_data wAlways mOneEach 0).getMod mOneEach) := rfl
    exact ((finalize_takes_bytes wAlways mOneEach 0).2 ⟨[8], [], 32, false⟩ _ rfl h).2

/-! ## Machine-word lemmas for the breakpoint manager -/

theorem leVal_digit : ∀ (L : List Nat), (∀ b ∈ L, b < 256) → ∀ j, j < L.length →
    leVal L / 256 ^ j % 256 = L.getD j 0 := by
  intro L
  induction L with
  | nil =>
    intro _ j hj
    simp at hj
  | cons x xs ih =>
    intro hb j hj
    cases j with
    | zero =>
      show leVal (x :: xs) / 256 ^ 0 % 256 = x
      rw [pow_zero, Nat.div_one]
      show (x + 256 * leVal xs) % 256 = x
      rw [Nat.add_mul_mod_self_left]
      exact Nat.mod_eq_of_lt (hb x (List.mem_cons_self _ _))
    | succ n =>
      have hx : x < 256 := hb x (List.mem_cons_self _ _)
      have hdiv : leVal (x :: xs) / 256 ^ (n + 1) = leVal xs / 256 ^ n := by
        show (x + 256 * leVal xs) / 256 ^ (n + 1) = leVal xs / 256 ^ n
        rw [pow_succ', ← Nat.div_div_eq_div_mul]
        congr 1
        rw [Nat.add_mul_div_left _ _ (by norm_num : 0 < 256), Nat.div_eq_of_lt hx]
        omega
      rw [hdiv]
      have hgd : (x :: xs).getD (n + 1) 0 = xs.getD n 0 := rfl
      rw [hgd]
      exact ih (fun b hbm => hb b (List.mem_cons_of_mem _ hbm)) n (by simpa using hj)

theorem wordAt_length (mem : Nat → Nat) (addr : Nat) : (wordAt mem addr).length = 8 := rfl

theorem wordAt_lt (mem : Nat → Nat) (hwf : ∀ i, mem i < 256) (addr : Nat) :
    ∀ b ∈ wordAt mem addr, b < 256 := by
  intro b hb
  simp [wordAt] at hb
  obtain ⟨i, _, hbe⟩ := hb
  rw [← hbe]
  exact hwf _

theorem wordAt_getD (mem : Nat → Nat) (addr j : Nat) (hj : j < 8) :
    (wordAt mem addr).getD j 0 = mem (addr + j) := by
  interval_cases j <;> simp [wordAt]

theorem ptraceReadWord_digit (mem : Nat → Nat) (hwf : ∀ i, mem i < 256) (addr j : Nat)
    (hj : j < 8) : ptraceReadWord mem addr / 256 ^ j % 256 = mem (addr + j) := by
  unfold ptraceReadWord
  rw [leVal_digit (wordAt mem addr) (wordAt_lt mem hwf addr) j (by rw [wordAt_length]; exact hj)]
  exact wordAt_getD mem addr j hj

theorem ptraceReadWord_mod (mem : Nat → Nat) (hwf : ∀ i, mem i < 256) (addr : Nat) :
    ptraceReadWord mem addr % 256 = mem addr := by
  have h := ptraceReadWord_digit mem hwf addr 0 (by norm_num)
  simpa using h

/-- Writing back the read word with only its low byte replaced by `b`
changes exactly the byte at `addr` to `b`. -/
theorem pokeLowByte (mem : Nat → Nat) (hwf : ∀ i, mem i < 256) (addr b : Nat) (hb : b < 256)
    (i : Nat) :
    ptraceWriteWord mem addr (ptraceReadWord mem addr - ptraceReadWord mem addr % 256 + b) i
      = if i = addr then b else mem i := by
  have hsub : ptraceReadWord mem addr - ptraceReadWord mem addr % 256 + b
      = 256 * (ptraceReadWord mem addr / 256) + b := by
    have h := Nat.div_add_mod (ptraceReadWord mem addr) 256
    omega
  unfold ptraceWriteWord
  by_cases hin : addr ≤ i ∧ i < addr + 8
  · rw [if_pos hin]
    by_cases hi : i = addr
    · subst hi
      rw [if_pos rfl, Nat.sub_self, pow_zero, Nat.div_one, hsub, Nat.mul_add_mod]
      exact Nat.mod_eq_of_lt hb
    · rw [if_neg hi]
      obtain ⟨k, hk⟩ : ∃ k, i - addr = k + 1 := ⟨i - addr - 1, by omega⟩
      have hdiv : (ptraceReadWord mem addr - ptraceReadWord mem addr % 256 + b)
          / 256 ^ (i - addr) = ptraceReadWord mem addr / 256 ^ (i - addr) := by
        rw [hk, hsub, pow_succ', ← Nat.div_div_eq_div_mul, ← Nat.div_div_eq_div_mul]
        congr 1
        rw [Nat.mul_add_div (by norm_num : 0 < 256), Nat.div_eq_of_lt hb]
        omega
      rw [hdiv]
      have hlt : i - addr < 8 := by omega
      have hdig := ptraceReadWord_digit mem hwf addr (i - addr) hlt
      rw [Nat.add_sub_cancel' hin.1] at hdig
      exact hdig
  · rw [if_neg hin]
    have hi : i ≠ addr := by omega
    rw [if_neg hi]

theorem set_breakpoint_none (t : LinuxTarget) (a cb : Nat) (hnone : t.breakpoints a = none) :
    set_breakpoint t ⟨a, cb⟩ =
      .ok { mem := ptraceWriteWord t.mem a
              (ptraceReadWord t.mem a - ptraceReadWord t.mem a % 256 + 0xcc)
          , breakpoints := fun x =>
              if x = a then some ⟨ptraceReadWord t.mem a % 256, cb⟩ else t.breakpoints x
          , regs := t.regs
          , log := t.log ++ [.peek, .poke] } := by
  unfold set_breakpoint
  simp [hnone]

theorem remove_breakpoint_some (t : LinuxTarget) (a : Nat) (e : BreakpointEntry)
    (hsome : t.breakpoints a = some e) :
    remove_breakpoint t a =
      .ok ({ mem := ptraceWriteWord t.mem a
               (ptraceReadWord t.mem a - ptraceReadWord t.mem a % 256 + e.replaced_byte)
           , breakpoints := fun x => if x = a then none else t.breakpoints x
           , regs := t.regs
           , log := t.log ++ [.peek, .poke] }, ⟨a, e.on_trap⟩) := by
  unfold remove_breakpoint
  rw [hsome]

/-! ## Claim C5: breakpoint set/remove -/

/-- C5: for an address with no breakpoint installed, `set_breakpoint`
reads one machine word at the address, saves its low byte as the
replaced byte, and writes the word back with only the low byte
replaced by `0xcc` (every other memory byte, including the upper bytes
of the word, unchanged); setting a breakpoint at an address that
already has one is rejected; and `set_breakpoint` followed by
`remove_breakpoint` restores the byte at the address to its original
value and returns the callback. -/
theorem set_remove_breakpoint_spec (t : LinuxTarget) (a cb : Nat)
    (hwf : ∀ i, t.mem i < 256) :
    (t.breakpoints a = none →
      ∃ t1, set_breakpoint t ⟨a, cb⟩ = .ok t1 ∧
        (∀ i, t1.mem i = if i = a then 0xcc else t.mem i) ∧
        t1.breakpoints a = some ⟨t.mem a, cb⟩ ∧
        (∀ x, x ≠ a → t1.breakpoints x = t.breakpoints x) ∧
        t1.log = t.log ++ [.peek, .poke] ∧
        ∃ t2 bp, remove_breakpoint t1 a = .ok (t2, bp) ∧
          bp.addr = a ∧ bp.on_trap = cb ∧
          (∀ i, t2.mem i = t.mem i) ∧
          t2.breakpoints a = none ∧
          (∀ x, x ≠ a → t2.breakpoints x = t.breakpoints x)) ∧
    (∀ e, t.breakpoints a = some e →
      set_breakpoint t ⟨a, cb⟩ = .panic "Breakpoint already set") := by
  constructor
  · intro hnone
    refine ⟨_, set_breakpoint_none t a cb hnone, ?_, ?_, ?_, rfl, ?_⟩
    · intro i
      exact pokeLowByte t.mem hwf a 0xcc (by norm_num) i
    · show (if a = a then some ⟨ptraceReadWord t.mem a % 256, cb⟩ else t.breakpoints a)
        = some ⟨t.mem a, cb⟩
      rw [if_pos rfl, ptraceReadWord_mod t.mem hwf a]
    · intro x hx
      show (if x = a then some ⟨ptraceReadWord t.mem a % 256, cb⟩ else t.breakpoints x)
        = t.breakpoints x
      rw [if_neg hx]
    · have hmem1 : ∀ i,
          ptraceWriteWord t.mem a
            (ptraceReadWord t.mem a - ptraceReadWord t.mem a % 256 + 0xcc) i
          = if i = a then 0xcc else t.mem i :=
        pokeLowByte t.mem hwf a 0xcc (by norm_num)
      have hwf1 : ∀ i,
          ptraceWriteWord t.mem a
            (ptraceReadWord t.mem a - ptraceReadWord t.mem a % 256 + 0xcc) i < 256 := by
        intro i
        rw [hmem1 i]
        split
        · norm_num
        · exact hwf i
      have hbp1 : (fun x =>
          if x = a then some (⟨ptraceReadWord t.mem a % 256, cb⟩ : BreakpointEntry)
          else t.breakpoints x) a = some ⟨t.mem a, cb⟩ := by
        show (if a = a then some ⟨ptraceReadWord t.mem a % 256, cb⟩ else t.breakpoints a)
          = some ⟨t.mem a, cb⟩
        rw [if_pos rfl, ptraceReadWord_mod t.mem hwf a]
      refine ⟨_, _, remove_breakpoint_some _ a ⟨t.mem a, cb⟩ hbp1, rfl, rfl, ?_, ?_, ?_⟩
      · intro i
        have h2 := pokeLowByte _ hwf1 a (t.mem a) (hwf a) i
        dsimp only
        rw [h2]
        by_cases hi : i = a
        · rw [if_pos hi, hi]
        · rw [if_neg hi, hmem1 i, if_neg hi]
      · show (if a = a then none
            else (fun x => if x = a then some (⟨ptraceReadWord t.mem a % 256, cb⟩ :
              BreakpointEntry) else t.breakpoints x) a) = none
        rw [if_pos rfl]
      · intro x hx
        show (if x = a then none
            else (fun y => if y = a then some (⟨ptraceReadWord t.mem a % 256, cb⟩ :
              BreakpointEntry) else t.breakpoints y) x) = t.breakpoints x
        rw [if_neg hx]
        show (if x = a then some ⟨ptraceReadWord t.mem a % 256, cb⟩ else t.breakpoints x)
          = t.breakpoints x
        rw [if_neg hx]
  · intro e he
    unfold set_breakpoint
    simp [he]

/-- Witness for C5: on a clean target (byte 0x90 everywhere), setting a
breakpoint at address 4 with callback 9 and removing it returns the
callback 9 and restores the byte at 4. -/
theorem set_remove_breakpoint_spec_witness :
    ((remove_breakpoint ((set_breakpoint tClean ⟨4, 9⟩).getVal tClean) 4).getVal
        (tClean, ⟨0, 0⟩)).2.on_trap = 9 ∧
    ((remove_breakpoint ((set_breakpoint tClean ⟨4, 9⟩).getVal tClean) 4).getVal
        (tClean, ⟨0, 0⟩)).1.mem 4 = tClean.mem 4 := by
  have hwf : ∀ i, tClean.mem i < 256 := fun _ => by norm_num [tClean]
  obtain ⟨t1, hset, hmem1, hbp1, hbp1x, hlog, t2, bp, hrem, haddr, htrap, hmem2, hbpn, hbpx⟩ :=
    (set_remove_breakpoint_spec tClean 4 9 hwf).1 rfl
  rw [hset]
  simp only [TgtRes.getVal]
  rw [hrem]
  simp only [TgtRes.getVal]
  exact ⟨htrap, hmem2 4⟩

/-! ## Claim C6: resume over a breakpoint -/

/-- C6: `unpause` reads the registers and, if the breakpoint table has
an entry at `PC - 1`, performs in order: remove that breakpoint,
single-step the tracee, wait for the stop, re-set the breakpoint at
the same address with the same callback, rewind `PC` by one, and write
the registers back; in all cases it then continues the tracee (the
ghost log shows the exact ptrace-call order).  If no entry exists at
`PC - 1` it only reads the registers and continues. -/
theorem unpause_spec (t : LinuxTarget) (e : BreakpointEntry)
    (hwf : ∀ i, t.mem i < 256) (hrb : e.replaced_byte < 256) :
    (t.breakpoints (t.regs.rip - 1) = some e →
      ∃ t5, unpause t = .ok t5 ∧
        t5.log = t.log ++
          [.getRegs, .peek, .poke, .step, .wait, .peek, .poke, .setRegs, .cont] ∧
        t5.regs.rip = t.regs.rip - 1 ∧
        t5.breakpoints (t.regs.rip - 1) = some ⟨e.replaced_byte, e.on_trap⟩ ∧
        (∀ x, x ≠ t.regs.rip - 1 → t5.breakpoints x = t.breakpoints x) ∧
        t5.mem (t.regs.rip - 1) = 0xcc ∧
        (∀ i, i ≠ t.regs.rip - 1 → t5.mem i = t.mem i)) ∧
    (t.breakpoints (t.regs.rip - 1) = none →
      unpause t = .ok { t with log := t.log ++ [.getRegs, .cont] }) := by
  constructor
  · intro hsome
    have hsome1 : ({ t with log := t.log ++ [.getRegs] } : LinuxTarget).breakpoints
        (t.regs.rip - 1) = some e := hsome
    have h1 := remove_breakpoint_some { t with log := t.log ++ [.getRegs] }
      (t.regs.rip - 1) e hsome1
    dsimp only at h1
    have hmemA := pokeLowByte t.mem hwf (t.regs.rip - 1) e.replaced_byte hrb
    have hwfA : ∀ i, ptraceWriteWord t.mem (t.regs.rip - 1)
        (ptraceReadWord t.mem (t.regs.rip - 1)
          - ptraceReadWord t.mem (t.regs.rip - 1) % 256 + e.replaced_byte) i < 256 := by
      intro i
      rw [hmemA i]
      split
      · exact hrb
      · exact hwf i
    have hnone3 : (fun x => if x = t.regs.rip - 1 then none else t.breakpoints x)
        (t.regs.rip - 1) = (none : Option BreakpointEntry) := by
      show (if t.regs.rip - 1 = t.regs.rip - 1 then none
        else t.breakpoints (t.regs.rip - 1)) = none
      rw [if_pos rfl]
    have h2 := set_breakpoint_none
      { mem := ptraceWriteWord t.mem (t.regs.rip - 1)
          (ptraceReadWord t.mem (t.regs.rip - 1)
            - ptraceReadWord t.mem (t.regs.rip - 1) % 256 + e.replaced_byte)
      , breakpoints := fun x => if x = t.regs.rip - 1 then none else t.breakpoints x
      , regs := t.regs
      , log := ((t.log ++ [.getRegs]) ++ [.peek, .poke]) ++ [.step, .wait] }
      (t.regs.rip - 1) e.on_trap hnone3
    dsimp only at h2
    refine Exists.intro ?t5 ⟨?_, ?_, ?_, ?_, ?_, ?_, ?_⟩
    rotate_left 1
    · unfold unpause
      rw [hsome]
      dsimp only [Option.isSome]
      rw [if_pos rfl, h1]
      dsimp only
      rw [h2]
      exact rfl
    · dsimp only
      simp
    · rfl
    · dsimp only
      rw [if_pos rfl, ptraceReadWord_mod _ hwfA (t.regs.rip - 1), hmemA (t.regs.rip - 1),
        if_pos rfl]
    · intro x hx
      dsimp only
      rw [if_neg hx, if_neg hx]
    · dsimp only
      rw [pokeLowByte _ hwfA (t.regs.rip - 1) 0xcc (by norm_num) (t.regs.rip - 1), if_pos rfl]
    · intro i hi
      dsimp only
      rw [pokeLowByte _ hwfA (t.regs.rip - 1) 0xcc (by norm_num) i, if_neg hi, hmemA i,
        if_neg hi]
  · intro hnone
    unfold unpause
    rw [hnone]
    simp

/-- Witness for C6: the target stopped just past the breakpoint at 9
resumes with the full remove/step/wait/re-set/rewind/continue
sequence, ending with `rip = 9` and the breakpoint re-installed. -/
theorem unpause_spec_witness :
    ((unpause tAtBp).getVal tAtBp).log =
      [.getRegs, .peek, .poke, .step, .wait, .peek, .poke, .setRegs, .cont] ∧
    ((unpause tAtBp).getVal tAtBp).regs.rip = 9 ∧
    ((unpause tAtBp).getVal tAtBp).breakpoints 9 = some ⟨0x90, 5⟩ := by
  have hwf : ∀ i, tAtBp.mem i < 256 := by
    intro i
    show (if i = 9 then 0xcc else 0x90) < 256
    split <;> norm_num
  have hsome : tAtBp.breakpoints (tAtBp.regs.rip - 1) = some ⟨0x90, 5⟩ := rfl
  obtain ⟨t5, hu, hlog, hrip, hbp, _, _, _⟩ :=
    (unpause_spec tAtBp ⟨0x90, 5⟩ hwf (by norm_num)).1 hsome
  rw [hu]
  simp only [TgtRes.getVal]
  refine ⟨?_, ?_, ?_⟩
  · rw [hlog]
    rfl
  · rw [hrip]
    rfl
  · exact hbp

/-! ## Claim C7: define_data and the init descriptor -/

/-- C7 counterexample: defining data with an `Uninitialized` init
descriptor on a definable, non-TLS declaration with no prior
definition hits `panic!("data is not initialized yet")` — an
unrecoverable abort — and is NOT a recoverable error returned to the
caller. -/
theorem define_data_uninit_counterexample :
    define_data allocFixed mExt 0 ctxUninit = .panic "data is not initialized yet" ∧
    (define_data allocFixed mExt 0 ctxUninit).isErr = false := by
  exact ⟨rfl, rfl⟩

/-- C7 (amended): defining a data object with an `Uninitialized` init
descriptor is rejected by an unrecoverable `panic!` (abort), not by a
recoverable per-call error returned to the caller; for accepted
descriptors, `Zeros(n)` produces `n` zero bytes and `Bytes(b)` is a
verbatim copy of `b` in the stored compiled record. -/
theorem define_data_spec (alloc : Bool → Nat → Option Nat → Nat) (m : InjectionModule)
    (data_id : Nat) (data_ctx : DataDescription)
    (hdef : (m.declarations.get_data_decl data_id).definable = true)
    (hdup : m.data_objects data_id = none)
    (htls : (m.declarations.get_data_decl data_id).tls = false)
    (hpw : m.pointer_width = .u64) :
    (data_ctx.init = .uninitialized →
      define_data alloc m data_id data_ctx = .panic "data is not initialized yet") ∧
    (∀ n, data_ctx.init = .zeros n →
      ∃ m2, define_data alloc m data_id data_ctx = .ok m2 ∧
        ∃ rs, m2.data_objects data_id = some
          ⟨List.replicate n 0, rs,
            alloc (m.declarations.get_data_decl data_id).writable n data_ctx.align, false⟩) ∧
    (∀ bs, data_ctx.init = .bytes bs →
      ∃ m2, define_data alloc m data_id data_ctx = .ok m2 ∧
        ∃ rs, m2.data_objects data_id = some
          ⟨bs, rs,
            alloc (m.declarations.get_data_decl data_id).writable bs.length data_ctx.align,
            false⟩) := by
  refine ⟨?_, ?_, ?_⟩
  · intro hinit
    simp [define_data, hdef, hdup, htls, hinit]
  · intro n hinit
    simp only [define_data, hdef, hdup, htls, hinit, Option.isSome_none, Bool.false_eq_true,
      Bool.true_eq_false, if_false, Init.size, defineDataFinish, hpw, pointerReloc]
    refine ⟨_, rfl, ?_⟩
    dsimp only
    rw [if_pos rfl]
    exact ⟨_, rfl⟩
  · intro bs hinit
    simp only [define_data, hdef, hdup, htls, hinit, Option.isSome_none, Bool.false_eq_true,
      Bool.true_eq_false, if_false, Init.size, defineDataFinish, hpw, pointerReloc]
    refine ⟨_, rfl, ?_⟩
    dsimp only
    rw [if_pos rfl]
    exact ⟨_, rfl⟩

/-- Witness for C7 (amended): `Zeros 3` stores `[0, 0, 0]` and
`Bytes [5, 6]` stores `[5, 6]`. -/
theorem define_data_spec_witness :
    Option.map CompiledBytes.bytes
      (((define_data allocFixed mExt 0 ctxZeros3).getMod mExt).data_objects 0)
      = some [0, 0, 0] ∧
    Option.map CompiledBytes.bytes
      (((define_data allocFixed mExt 0 ctxBytes56).getMod mExt).data_objects 0)
      = some [5, 6] := by
  constructor
  · obtain ⟨m2, hm2, rs, hrec⟩ :=
      (define_data_spec allocFixed mExt 0 ctxZeros3 rfl rfl rfl rfl).2.1 3 rfl
    rw [hm2]
    simp only [DefOutcome.getMod]
    rw [hrec]
    rfl
  · obtain ⟨m2, hm2, rs, hrec⟩ :=
      (define_data_spec allocFixed mExt 0 ctxBytes56 rfl rfl rfl rfl).2.2 [5, 6] rfl
    rw [hm2]
    simp only [DefOutcome.getMod]
    rw [hrec]
    rfl

end Headcrab
